import Mathlib

/-!
# fun-go: `parallel.Iterate` and `sql.ShardSet.Shard`

A shallow embedding of two pieces of the repository.

* `parallel.Iterate` (src/parallel/parallel.go) starts a generator goroutine, a
  dispatcher goroutine and one worker goroutine per issued index; they talk
  over three unbuffered channels (`workChan`, `resultChan`, `errChan`).  The
  embedding is a labelled transition system: a `State` holds the local
  variables and program point of every goroutine, an `Action` names one
  atomic move (a local move of one goroutine or a rendezvous on one channel),
  and `step` performs it when it is enabled.  A run is a list of actions
  (`exec`); quantifying over all such lists quantifies over all interleavings.
  The `trace` field is a history variable: it records the observable events
  of the run, newest first, and never influences a transition.

  Conventions of the model:
  - a send and the matching receive on an unbuffered channel are one move;
  - a loop test is taken together with the channel operation that follows it
    in the loop body; a loop test that fails is a move of its own;
  - `processingFunc` is a total function from the index to its result
    (`none` is `nil`), and a worker calls it in one move;
  - `int` values are mathematical integers: `index` and `workDone` are only
    incremented below `numItems` or `maxParallelCount`, so they never wrap.

* `ShardSet.Shard` (src/sql/ShardSet.go) is a pure index computation on
  `int64` values followed by a slice access.
-/

namespace Iterate

/-- Observable events of one call of `Iterate`. -/
inductive Event (ε : Type) where
  /-- index `i` passed over `workChan` (generator, lines 22/32, to dispatcher, line 49) -/
  | issue (i : Int)
  /-- a worker evaluated `processingFunc(i)` (line 48) -/
  | invoke (i : Int)
  /-- the result `r` of the worker for `i` passed over `resultChan` (line 48 to lines 27/36) -/
  | read (i : Int) (r : Option ε)
  /-- value `r` passed over `errChan` (lines 28/37/42 to line 53): `Iterate` returns `r` -/
  | ret (r : Option ε)
  deriving DecidableEq

/-- Program points of the generator goroutine (lines 16-43). -/
inductive GenPC (ε : Type) where
  /-- at the head of the loop of line 21 -/
  | fill
  /-- at the head of the loop of line 26 -/
  | steady
  /-- at line 32, after `workDone += 1`, about to send `index` on `workChan` -/
  | refill
  /-- at the head of the loop of line 35 -/
  | drain
  /-- at a send on `errChan` (line 28 or 37 with an error, line 42 with `nil`) -/
  | report (e : Option ε)
  /-- no generator goroutine is live: it has returned, or was never created -/
  | exited
  deriving DecidableEq

/-- Program points of the dispatcher goroutine (lines 45-51). -/
inductive Disp where
  /-- the goroutine was never created (`numItems == 0`) -/
  | absent
  /-- blocked in `<-workChan` (line 49) -/
  | idle
  /-- has received `i` and is about to run the `go` statement of line 47 -/
  | holding (i : Int)
  deriving DecidableEq

/-- The caller of `Iterate`: blocked in `<-errChan` (line 53) or returned. -/
inductive Main (ε : Type) where
  | waiting
  | returned (r : Option ε)
  deriving DecidableEq

/-- One atomic move of the system; the scheduler chooses which one happens. -/
inductive Action where
  /-- the generator finds a loop condition false and moves to the next statement -/
  | genLocal
  /-- rendezvous on `workChan` -/
  | issue
  /-- the dispatcher starts the worker goroutine for the index it holds -/
  | spawn
  /-- the `k`-th started worker calls `processingFunc` and gets its result -/
  | invoke (k : Nat)
  /-- rendezvous on `resultChan` with the `k`-th worker blocked in its send -/
  | read (k : Nat)
  /-- rendezvous on `errChan` -/
  | ret
  deriving DecidableEq

/-- Global state of one call of `Iterate`. -/
structure State (ε : Type) where
  numItems : Int
  /-- the parameter `maxParallelCount`, after the assignment of line 10 -/
  maxParallelCount : Int
  pc : GenPC ε
  /-- generator local `index` -/
  index : Int
  /-- generator local `workDone` -/
  workDone : Int
  disp : Disp
  /-- workers that were started and have not yet obtained `processingFunc(index)` -/
  running : List Int
  /-- workers blocked in `resultChan <- r`, with their index and the value `r` -/
  blocked : List (Int × Option ε)
  main : Main ε
  trace : List (Event ε)
  deriving DecidableEq

/-- Take the `k`-th element out of a list. -/
def pick {α : Type} : Nat → List α → Option (α × List α)
  | _, [] => none
  | 0, x :: xs => some (x, xs)
  | k + 1, x :: xs =>
    match pick k xs with
    | some (y, ys) => some (y, x :: ys)
    | none => none

/-- The state in which the caller of `Iterate` reaches line 53 (or returns at
line 7).  Nothing observable happens between the two `go` statements and the
receive of line 53: the goroutines can only move by a rendezvous, and all
partners exist from here on. -/
def start {ε : Type} (numItems maxParallelCount : Int) : State ε :=
  if numItems = 0 then
    { numItems := numItems, maxParallelCount := maxParallelCount,
      pc := .exited, index := 0, workDone := 0, disp := .absent,
      running := [], blocked := [], main := .returned none, trace := [.ret none] }
  else
    { numItems := numItems,
      maxParallelCount := if maxParallelCount > numItems then numItems else maxParallelCount,
      pc := .fill, index := 0, workDone := 0, disp := .idle,
      running := [], blocked := [], main := .waiting, trace := [] }

/-- What the generator does with a value received from `resultChan`
(lines 27-31 and 36-40); `next` is the program point after `workDone += 1`. -/
def onResult {ε : Type} (s : State ε) (next : GenPC ε) (i : Int) (r : Option ε)
    (rest : List (Int × Option ε)) : State ε :=
  match r with
  | some e =>
    { s with pc := .report (some e), blocked := rest, trace := .read i r :: s.trace }
  | none =>
    { s with pc := next, workDone := s.workDone + 1, blocked := rest,
             trace := .read i r :: s.trace }

/-- One transition; `none` when the action is not enabled in `s`. -/
def step {ε : Type} (processingFunc : Int → Option ε) (s : State ε) :
    Action → Option (State ε)
  | .genLocal =>
    match s.pc with
    | .fill => if s.index < s.maxParallelCount then none else some { s with pc := .steady }
    | .steady => if s.index < s.numItems then none else some { s with pc := .drain }
    | .drain =>
      if s.workDone < s.numItems then none else some { s with pc := .report none }
    | _ => none
  | .issue =>
    match s.disp with
    | .idle =>
      match s.pc with
      | .fill =>
        if s.index < s.maxParallelCount then
          some { s with index := s.index + 1, disp := .holding s.index,
                        trace := .issue s.index :: s.trace }
        else none
      | .refill =>
        some { s with pc := .steady, index := s.index + 1, disp := .holding s.index,
                      trace := .issue s.index :: s.trace }
      | _ => none
    | _ => none
  | .spawn =>
    match s.disp with
    | .holding i => some { s with disp := .idle, running := i :: s.running }
    | _ => none
  | .invoke k =>
    match pick k s.running with
    | some (i, rest) =>
      some { s with running := rest, blocked := (i, processingFunc i) :: s.blocked,
                    trace := .invoke i :: s.trace }
    | none => none
  | .read k =>
    match pick k s.blocked with
    | some ((i, r), rest) =>
      match s.pc with
      | .steady => if s.index < s.numItems then some (onResult s .refill i r rest) else none
      | .drain => if s.workDone < s.numItems then some (onResult s .drain i r rest) else none
      | _ => none
    | none => none
  | .ret =>
    match s.pc, s.main with
    | .report e, .waiting =>
      some { s with pc := .exited, main := .returned e, trace := .ret e :: s.trace }
    | _, _ => none

/-- Run a schedule from `s`; `none` when some action of it is not enabled. -/
def exec {ε : Type} (processingFunc : Int → Option ε) (s : State ε) :
    List Action → Option (State ε)
  | [] => some s
  | a :: as =>
    match step processingFunc s a with
    | some s' => exec processingFunc s' as
    | none => none

/-- Indices issued on `workChan`, newest first. -/
def issued {ε : Type} : List (Event ε) → List Int
  | [] => []
  | .issue i :: t => i :: issued t
  | _ :: t => issued t

/-- Indices `processingFunc` was called with, newest first. -/
def invoked {ε : Type} : List (Event ε) → List Int
  | [] => []
  | .invoke i :: t => i :: invoked t
  | _ :: t => invoked t

/-- Indices whose result was read from `resultChan`, newest first. -/
def consumed {ε : Type} : List (Event ε) → List Int
  | [] => []
  | .read i _ :: t => i :: consumed t
  | _ :: t => consumed t

/-- The first non-nil result read from `resultChan` in the order of the run
(the trace is newest first), with the index it came from. -/
def firstFailure {ε : Type} : List (Event ε) → Option (Int × ε)
  | [] => none
  | ev :: t =>
    match firstFailure t with
    | some x => some x
    | none =>
      match ev with
      | .read i (some e) => some (i, e)
      | _ => none

/-- Indices issued on `workChan` whose result has not been read from
`resultChan`. -/
def outstanding {ε : Type} (s : State ε) : Int :=
  ((issued s.trace).length : Int) - ((consumed s.trace).length : Int)

/-- Number of goroutines started by the call that have not finished. -/
def liveTasks {ε : Type} (s : State ε) : Nat :=
  (match s.pc with | .exited => 0 | _ => 1)
  + (match s.disp with | .absent => 0 | _ => 1)
  + s.running.length + s.blocked.length

/-- A bound on the number of transitions still possible from `s`. -/
def fuel {ε : Type} (s : State ε) : Nat :=
  4 * (s.numItems - s.index).toNat
  + (match s.disp with | .holding _ => 3 | _ => 0)
  + 2 * s.running.length + s.blocked.length
  + (match s.pc with
     | .fill => 4 | .steady => 3 | .refill => 3 | .drain => 2 | .report _ => 1 | .exited => 0)

variable {ε : Type}

/-- The index the dispatcher holds between its receive and its `go` statement. -/
def held : Disp → List Int
  | .holding i => [i]
  | _ => []

/-- What holds of the generator at each of its program points. -/
def Phase (s : State ε) : Prop :=
  match s.pc with
  | .fill =>
    s.workDone = 0 ∧ consumed s.trace = [] ∧ (s.index ≤ s.maxParallelCount ∨ s.index = 0)
      ∧ firstFailure s.trace = none ∧ s.main = .waiting
  | .steady =>
    ((consumed s.trace).length : Int) = s.workDone
      ∧ (s.index - s.workDone = s.maxParallelCount ∨ (s.maxParallelCount ≤ 0 ∧ s.index = 0))
      ∧ firstFailure s.trace = none ∧ s.main = .waiting
  | .refill =>
    ((consumed s.trace).length : Int) = s.workDone
      ∧ s.index - s.workDone = s.maxParallelCount - 1 ∧ s.index < s.numItems
      ∧ firstFailure s.trace = none ∧ s.main = .waiting
  | .drain =>
    ((consumed s.trace).length : Int) = s.workDone ∧ s.numItems ≤ s.index
      ∧ firstFailure s.trace = none ∧ s.main = .waiting
  | .report none =>
    ((consumed s.trace).length : Int) = s.workDone ∧ s.numItems ≤ s.index
      ∧ s.numItems ≤ s.workDone ∧ firstFailure s.trace = none ∧ s.main = .waiting
  | .report (some e) => (∃ i, firstFailure s.trace = some (i, e)) ∧ s.main = .waiting
  | .exited =>
    (s.main = .returned none ∧ firstFailure s.trace = none
        ∧ s.numItems ≤ s.index ∧ s.numItems ≤ ((consumed s.trace).length : Int))
      ∨ (∃ i e, s.main = .returned (some e) ∧ firstFailure s.trace = some (i, e))

/-- Invariant of every run of a call with `numItems ≠ 0`: the counters of the
generator against the history and against the goroutines that exist. -/
structure Inv (s : State ε) : Prop where
  clamp : s.maxParallelCount ≤ s.numItems
  idx0 : 0 ≤ s.index
  idxN : s.index ≤ s.numItems ∨ s.index = 0
  issLen : ((issued s.trace).length : Int) = s.index
  flight : s.index = ((held s.disp).length : Int) + (s.running.length : Int)
      + (s.blocked.length : Int) + ((consumed s.trace).length : Int)
  bound : s.index - ((consumed s.trace).length : Int) ≤ s.maxParallelCount ∨ s.index = 0
  dispLive : s.disp ≠ .absent
  phase : Phase s

/-- Invariant of every run, index by index: where each issued index is. -/
structure Cnt (f : Int → Option ε) (s : State ε) : Prop where
  issCnt : ∀ i, (issued s.trace).count i = if 0 ≤ i ∧ i < s.index then 1 else 0
  split : ∀ i, (issued s.trace).count i = (held s.disp).count i + s.running.count i
      + (s.blocked.map Prod.fst).count i + (consumed s.trace).count i
  inv : ∀ i, (invoked s.trace).count i
      = (s.blocked.map Prod.fst).count i + (consumed s.trace).count i
  blkVal : ∀ p ∈ s.blocked, p.2 = f p.1
  readVal : ∀ i r, Event.read i r ∈ s.trace → r = f i

/-- Nothing is issued after a failure was read, and what is invoked after it
was issued before it. -/
def NoIssueAfterFailure (t : List (Event ε)) : Prop :=
  ∀ (later earlier : List (Event ε)) (i : Int) (e : ε),
    t = later ++ Event.read i (some e) :: earlier →
      (∀ j, Event.issue j ∉ later) ∧ (∀ j, Event.invoke j ∈ later → Event.issue j ∈ earlier)

/-- A `processingFunc` that always succeeds. -/
def alwaysNil : Int → Option Nat := fun _ => none

/-- A `processingFunc` that fails, with error `7`, for index `k` only. -/
def failsAt (k : Int) : Int → Option Nat := fun i => if i = k then some 7 else none

/-- A complete run of `Iterate(5, 2, alwaysNil)`. -/
def scenarioA : List Action :=
  [.issue, .spawn, .issue, .spawn, .genLocal, .invoke 0, .invoke 0, .read 0,
   .issue, .spawn, .invoke 0, .read 0, .issue, .spawn, .invoke 0, .read 0,
   .issue, .spawn, .genLocal, .invoke 0, .read 0, .read 0, .genLocal, .ret]

/-- A run of `Iterate(10, 3, failsAt 4)` up to its return. -/
def scenarioB : List Action :=
  [.issue, .spawn, .issue, .spawn, .issue, .spawn, .genLocal, .invoke 0, .invoke 0,
   .invoke 0, .read 0, .issue, .spawn, .invoke 0, .read 0, .issue, .spawn, .invoke 0,
   .read 0, .ret]

/-- A complete run of `Iterate(1, 1, alwaysNil)`. -/
def runOne : List Action :=
  [.issue, .genLocal, .spawn, .invoke 0, .genLocal, .read 0, .genLocal, .ret]

/-- A run of `Iterate(2, 2, failsAt 0)` up to its return: the failure of index
0 is read while the worker for index 1 is blocked in its send. -/
def runFail : List Action :=
  [.issue, .spawn, .issue, .spawn, .genLocal, .genLocal, .invoke 0, .invoke 0, .read 0, .ret]

/-- A run of `Iterate(3, 2, failsAt 0)` in which index 1 is invoked after the
failure of index 0 was read. -/
def runLate : List Action :=
  [.issue, .spawn, .issue, .spawn, .genLocal, .invoke 1, .read 0, .invoke 0, .ret]

/-- The run of `Iterate(-1, 1, f)`. -/
def runNegative : List Action := [.genLocal, .genLocal, .genLocal, .ret]

end Iterate

namespace Sql

/-- Run-time panics of the modelled functions. -/
inductive Panic where
  /-- `panic("Bad shard index id 0")` (line 87) -/
  | badShardId
  /-- integer division by zero in `%` (line 89) -/
  | divideByZero
  /-- slice index out of range (line 90) -/
  | indexOutOfRange
  /-- `make` with a negative length (line 75) -/
  | negativeLen
  deriving DecidableEq

/-- Two's-complement wrap-around of `int64` arithmetic. -/
def wrapInt64 (x : Int) : Int := (x + 2 ^ 63) % 2 ^ 64 - 2 ^ 63

/-- The fields of `ShardSet` that `Connect` and `Shard` use.  `τ` stands for
`Shard`, and `Option τ` for `*Shard` (`none` is the nil pointer). -/
structure ShardSet (τ : Type) where
  numShards : Int
  maxShards : Int
  shards : List (Option τ)

variable {τ E : Type}

/-- `ShardSet.Shard` (lines 85-91); `id` is an `int64`. -/
def ShardSet.Shard (s : ShardSet τ) (id : Int) : Except Panic (Option τ) :=
  if id = 0 then .error .badShardId
  else if s.maxShards = 0 then .error .divideByZero
  else
    let shardIndex := Int.tmod (wrapInt64 (id - 1)) s.maxShards
    if shardIndex < 0 then .error .indexOutOfRange
    else
      match s.shards[shardIndex.toNat]? with
      | some p => .ok p
      | none => .error .indexOutOfRange

/-- `ShardSet.addShard` (lines 105-113); `newShard` takes the
`autoIncrementOffset` and stands for `newShard` of line 115, which opens a
database connection.  Called with `i` inside the slice only. -/
def ShardSet.addShard (newShard : Int → Except E τ) (s : ShardSet τ) (i : Nat) :
    ShardSet τ × Option E :=
  match newShard ((i : Int) + 1) with
  | .ok sh => ({ s with shards := s.shards.set i (some sh) }, none)
  | .error e => ({ s with shards := s.shards.set i none }, some e)

/-- The loop of lines 76-81, from `i`, with `n` iterations left. -/
def ShardSet.connectLoop (newShard : Int → Except E τ) :
    Nat → Nat → ShardSet τ → ShardSet τ × Option E
  | 0, _, s => (s, none)
  | n + 1, i, s =>
    match ShardSet.addShard newShard s i with
    | (s1, some e) => (s1, some e)
    | (s1, none) => ShardSet.connectLoop newShard n (i + 1) s1

/-- `ShardSet.Connect` (lines 74-83): the set after the call and the error
it returns. -/
def ShardSet.Connect (newShard : Int → Except E τ) (s : ShardSet τ) :
    Except Panic (ShardSet τ × Option E) :=
  if s.numShards < 0 then .error .negativeLen
  else
    .ok (ShardSet.connectLoop newShard s.numShards.toNat 0
      { s with shards := List.replicate s.numShards.toNat none })

/-- A connected set of three shards. -/
def threeShards : ShardSet Nat :=
  { numShards := 3, maxShards := 3, shards := [some 10, some 20, some 30] }

end Sql

namespace Iterate

variable {ε : Type}

theorem pick_perm {α : Type} : ∀ (k : Nat) (l : List α) (x : α) (rest : List α),
    pick k l = some (x, rest) → l.Perm (x :: rest)
  | _, [], _, _, h => by simp [pick] at h
  | 0, y :: ys, x, rest, h => by
    simp [pick] at h
    obtain ⟨rfl, rfl⟩ := h
    exact List.Perm.refl _
  | k + 1, y :: ys, x, rest, h => by
    simp only [pick] at h
    split at h
    · rename_i z zs hz
      simp at h
      obtain ⟨rfl, rfl⟩ := h
      exact ((pick_perm k ys _ _ hz).cons y).trans (List.Perm.swap _ _ _)
    · simp at h

theorem pick_length {α : Type} {k : Nat} {l : List α} {x : α} {rest : List α}
    (h : pick k l = some (x, rest)) : l.length = rest.length + 1 := by
  simpa using (pick_perm k l x rest h).length_eq

theorem pick_zero_of_ne_nil {α : Type} {l : List α} (h : l ≠ []) :
    ∃ x rest, pick 0 l = some (x, rest) := by
  cases l with
  | nil => exact absurd rfl h
  | cons x xs => exact ⟨x, xs, rfl⟩

@[simp] theorem issued_issue (i : Int) (t : List (Event ε)) :
    issued (Event.issue i :: t) = i :: issued t := rfl
@[simp] theorem issued_invoke (i : Int) (t : List (Event ε)) :
    issued (Event.invoke i :: t) = issued t := rfl
@[simp] theorem issued_read (i : Int) (r : Option ε) (t : List (Event ε)) :
    issued (Event.read i r :: t) = issued t := rfl
@[simp] theorem issued_ret (r : Option ε) (t : List (Event ε)) :
    issued (Event.ret r :: t) = issued t := rfl
@[simp] theorem invoked_issue (i : Int) (t : List (Event ε)) :
    invoked (Event.issue i :: t) = invoked t := rfl
@[simp] theorem invoked_invoke (i : Int) (t : List (Event ε)) :
    invoked (Event.invoke i :: t) = i :: invoked t := rfl
@[simp] theorem invoked_read (i : Int) (r : Option ε) (t : List (Event ε)) :
    invoked (Event.read i r :: t) = invoked t := rfl
@[simp] theorem invoked_ret (r : Option ε) (t : List (Event ε)) :
    invoked (Event.ret r :: t) = invoked t := rfl
@[simp] theorem consumed_issue (i : Int) (t : List (Event ε)) :
    consumed (Event.issue i :: t) = consumed t := rfl
@[simp] theorem consumed_invoke (i : Int) (t : List (Event ε)) :
    consumed (Event.invoke i :: t) = consumed t := rfl
@[simp] theorem consumed_read (i : Int) (r : Option ε) (t : List (Event ε)) :
    consumed (Event.read i r :: t) = i :: consumed t := rfl
@[simp] theorem consumed_ret (r : Option ε) (t : List (Event ε)) :
    consumed (Event.ret r :: t) = consumed t := rfl

@[simp] theorem firstFailure_read_none (i : Int) (t : List (Event ε)) :
    firstFailure (Event.read i none :: t) = firstFailure t := by
  simp only [firstFailure]; cases firstFailure t <;> rfl

@[simp] theorem firstFailure_issue (i : Int) (t : List (Event ε)) :
    firstFailure (Event.issue i :: t) = firstFailure t := by
  simp only [firstFailure]; cases firstFailure t <;> rfl

@[simp] theorem firstFailure_invoke (i : Int) (t : List (Event ε)) :
    firstFailure (Event.invoke i :: t) = firstFailure t := by
  simp only [firstFailure]; cases firstFailure t <;> rfl

@[simp] theorem firstFailure_ret (r : Option ε) (t : List (Event ε)) :
    firstFailure (Event.ret r :: t) = firstFailure t := by
  simp only [firstFailure]; cases firstFailure t <;> rfl

theorem firstFailure_read_some (i : Int) (e : ε) (t : List (Event ε))
    (h : firstFailure t = none) :
    firstFailure (Event.read i (some e) :: t) = some (i, e) := by
  simp only [firstFailure, h]

theorem inv_step {f : Int → Option ε} {s s' : State ε} {a : Action}
    (h : Inv s) (hs : step f s a = some s') : Inv s' := by
  obtain ⟨hc, h0, hN, hI, hF, hB, hD, hP⟩ := h
  rcases s with ⟨n, m, pc, idx, wd, d, run, blk, mn, tr⟩
  simp only at hc h0 hN hI hF hB hD
  cases a with
  | genLocal =>
    cases pc <;> simp [step] at hs
    case fill =>
      obtain ⟨hlt, rfl⟩ := hs
      simp only [Phase] at hP
      obtain ⟨rfl, hcs, hle, hff, hm⟩ := hP
      refine ⟨hc, h0, hN, hI, hF, hB, hD, ?_⟩
      simp only [Phase]
      refine ⟨by simp [hcs], ?_, hff, hm⟩
      omega
    case steady =>
      obtain ⟨hlt, rfl⟩ := hs
      simp only [Phase] at hP
      obtain ⟨hcs, hle, hff, hm⟩ := hP
      refine ⟨hc, h0, hN, hI, hF, hB, hD, ?_⟩
      simp only [Phase]
      exact ⟨hcs, hlt, hff, hm⟩
    case drain =>
      obtain ⟨hlt, rfl⟩ := hs
      simp only [Phase] at hP
      obtain ⟨hcs, hle, hff, hm⟩ := hP
      refine ⟨hc, h0, hN, hI, hF, hB, hD, ?_⟩
      simp only [Phase]
      exact ⟨hcs, hle, hlt, hff, hm⟩
  | issue =>
    cases d <;> simp [step] at hs
    cases pc <;> simp at hs
    case idle.fill =>
      obtain ⟨hlt, rfl⟩ := hs
      simp only [Phase] at hP
      obtain ⟨rfl, hcs, hle, hff, hm⟩ := hP
      refine ⟨hc, by simp only; omega, by simp only; omega, by simp [hI],
        by simp [held] at hF ⊢; omega, by simp [hcs]; omega, by simp, ?_⟩
      simp only [Phase]
      refine ⟨trivial, by simpa using hcs, by omega, by simpa using hff, hm⟩
    case idle.refill =>
      subst hs
      simp only [Phase] at hP
      obtain ⟨hcs, hle, hlt, hff, hm⟩ := hP
      refine ⟨hc, by simp only; omega, by simp only; omega, by simp [hI],
        by simp [held] at hF ⊢; omega, by simp; omega, by simp, ?_⟩
      simp only [Phase]
      refine ⟨by simpa using hcs, by omega, by simpa using hff, hm⟩
  | spawn =>
    cases d <;> simp [step] at hs
    subst hs
    refine ⟨hc, h0, hN, hI, by simp [held] at hF ⊢; omega, hB, by simp, ?_⟩
    cases pc <;> simpa [Phase] using hP
  | invoke k =>
    simp only [step] at hs
    split at hs
    · rename_i i rest hp
      simp at hs
      subst hs
      have hl := pick_length hp
      refine ⟨hc, h0, hN, by simpa using hI, by simp at hF ⊢; omega, by simpa using hB, hD, ?_⟩
      cases pc <;> simp [Phase] at hP ⊢ <;> exact hP
    · simp at hs
  | read k =>
    simp only [step] at hs
    split at hs
    · rename_i i r rest hp
      have hl := pick_length hp
      cases pc <;> simp at hs
      case steady =>
        obtain ⟨hlt, rfl⟩ := hs
        simp only [Phase] at hP
        obtain ⟨hcs, hle, hff, hm⟩ := hP
        cases r with
        | none =>
          simp only [onResult]
          refine ⟨hc, h0, hN, by simpa using hI, by simp at hF ⊢; omega, by simp; omega,
            hD, ?_⟩
          simp only [Phase]
          refine ⟨by simp; omega, by omega, hlt, by simpa using hff, hm⟩
        | some e =>
          simp only [onResult]
          refine ⟨hc, h0, hN, by simpa using hI, by simp at hF ⊢; omega, by simp; omega,
            hD, ?_⟩
          simp only [Phase]
          exact ⟨⟨i, firstFailure_read_some i e tr hff⟩, hm⟩
      case drain =>
        obtain ⟨hlt, rfl⟩ := hs
        simp only [Phase] at hP
        obtain ⟨hcs, hle, hff, hm⟩ := hP
        cases r with
        | none =>
          simp only [onResult]
          refine ⟨hc, h0, hN, by simpa using hI, by simp at hF ⊢; omega, by simp; omega,
            hD, ?_⟩
          simp only [Phase]
          refine ⟨by simp; omega, hle, by simpa using hff, hm⟩
        | some e =>
          simp only [onResult]
          refine ⟨hc, h0, hN, by simpa using hI, by simp at hF ⊢; omega, by simp; omega,
            hD, ?_⟩
          simp only [Phase]
          exact ⟨⟨i, firstFailure_read_some i e tr hff⟩, hm⟩
    · simp at hs
  | ret =>
    cases pc <;> cases mn <;> simp [step] at hs
    rename_i e
    subst hs
    refine ⟨hc, h0, hN, by simpa using hI, by simpa using hF, by simpa using hB, hD, ?_⟩
    cases e with
    | none =>
      simp only [Phase] at hP ⊢
      obtain ⟨hcs, hle, hwd, hff, -⟩ := hP
      left
      refine ⟨trivial, by simpa using hff, hle, by simp; omega⟩
    | some e =>
      simp only [Phase] at hP ⊢
      obtain ⟨⟨i, hi⟩, -⟩ := hP
      right
      exact ⟨i, by simpa using hi⟩

theorem cnt_step {f : Int → Option ε} {s s' : State ε} {a : Action}
    (h0 : 0 ≤ s.index) (h : Cnt f s) (hs : step f s a = some s') : Cnt f s' := by
  obtain ⟨hI, hS, hV, hB, hR⟩ := h
  rcases s with ⟨n, m, pc, idx, wd, d, run, blk, mn, tr⟩
  simp only at h0 hI hS hV hB hR
  cases a with
  | genLocal =>
    cases pc <;> simp [step] at hs
    all_goals
      obtain ⟨-, rfl⟩ := hs
      exact ⟨hI, hS, hV, hB, hR⟩
  | issue =>
    have key : ∀ i : Int, (idx :: issued tr).count i
        = if 0 ≤ i ∧ i < idx + 1 then 1 else 0 := by
      intro i
      rw [List.count_cons, hI i]
      by_cases hi : idx = i
      · subst hi
        have h1 : ¬ (idx < idx) := lt_irrefl _
        have h2 : idx < idx + 1 := by omega
        simp [h0, h1, h2]
      · have h3 : ¬ (idx == i) = true := by simpa using hi
        have h4 : (0 ≤ i ∧ i < idx + 1) ↔ (0 ≤ i ∧ i < idx) := by
          constructor
          · rintro ⟨a, b⟩; exact ⟨a, by omega⟩
          · rintro ⟨a, b⟩; exact ⟨a, by omega⟩
        simp [h3, h4]
    cases d <;> simp [step] at hs
    cases pc <;> simp at hs
    case idle.fill =>
      obtain ⟨-, rfl⟩ := hs
      refine ⟨by simpa using key, ?_, by simpa using hV, hB, by simpa using hR⟩
      intro i
      have := hS i
      simp [held, List.count_cons] at this ⊢
      omega
    case idle.refill =>
      subst hs
      refine ⟨by simpa using key, ?_, by simpa using hV, hB, by simpa using hR⟩
      intro i
      have := hS i
      simp [held, List.count_cons] at this ⊢
      omega
  | spawn =>
    cases d <;> simp [step] at hs
    subst hs
    refine ⟨hI, ?_, hV, hB, hR⟩
    intro i
    have := hS i
    simp [held, List.count_cons] at this ⊢
    omega
  | invoke k =>
    simp only [step] at hs
    split at hs
    · rename_i i rest hp
      simp at hs
      subst hs
      have hc := fun j => (pick_perm _ _ _ _ hp).count_eq j
      refine ⟨by simpa using hI, ?_, ?_, ?_, by simpa using hR⟩
      · intro j
        have h1 := hS j
        have h2 := hc j
        simp [List.count_cons] at h1 h2 ⊢
        omega
      · intro j
        have h1 := hV j
        simp [List.count_cons] at h1 ⊢
        omega
      · intro p hp'
        simp at hp'
        rcases hp' with rfl | hp'
        · rfl
        · exact hB p hp'
    · simp at hs
  | read k =>
    simp only [step] at hs
    split at hs
    · rename_i i r rest hp
      have hperm := pick_perm _ _ _ _ hp
      have hc := fun j => (hperm.map Prod.fst).count_eq j
      have hri : r = f i := hB (i, r) (hperm.mem_iff.mpr (List.mem_cons_self _ _))
      have hB' : ∀ p ∈ rest, p.2 = f p.1 := fun p hp' =>
        hB p (hperm.mem_iff.mpr (List.mem_cons_of_mem _ hp'))
      have fin : ∀ (pc' : GenPC ε) (wd' : Int), Cnt f
          { numItems := n, maxParallelCount := m, pc := pc', index := idx, workDone := wd',
            disp := d, running := run, blocked := rest, main := mn,
            trace := Event.read i r :: tr } := by
        intro pc' wd'
        refine ⟨by simpa using hI, ?_, ?_, hB', ?_⟩
        · intro j
          have h1 := hS j
          have h2 := hc j
          simp [List.count_cons] at h1 h2 ⊢
          omega
        · intro j
          have h1 := hV j
          have h2 := hc j
          simp [List.count_cons] at h1 h2 ⊢
          omega
        · intro j r' hm
          simp at hm
          rcases hm with ⟨rfl, rfl⟩ | hm
          · exact hri
          · exact hR j r' hm
      cases pc <;> simp at hs
      all_goals
        obtain ⟨-, rfl⟩ := hs
        cases r <;> exact fin _ _
    · simp at hs
  | ret =>
    cases pc <;> cases mn <;> simp [step] at hs
    subst hs
    exact ⟨by simpa using hI, by simpa using hS, by simpa using hV, hB, by simpa using hR⟩

theorem step_params {f : Int → Option ε} {s s' : State ε} {a : Action}
    (hs : step f s a = some s') :
    s'.numItems = s.numItems ∧ s'.maxParallelCount = s.maxParallelCount := by
  rcases s with ⟨n, m, pc, idx, wd, d, run, blk, mn, tr⟩
  cases a with
  | genLocal =>
    cases pc <;> simp [step] at hs
    all_goals
      obtain ⟨-, rfl⟩ := hs
      exact ⟨rfl, rfl⟩
  | issue =>
    cases d <;> simp [step] at hs
    cases pc <;> simp at hs
    · obtain ⟨-, rfl⟩ := hs
      exact ⟨rfl, rfl⟩
    · subst hs
      exact ⟨rfl, rfl⟩
  | spawn =>
    cases d <;> simp [step] at hs
    subst hs
    exact ⟨rfl, rfl⟩
  | invoke k =>
    simp only [step] at hs
    split at hs
    · simp at hs
      subst hs
      exact ⟨rfl, rfl⟩
    · simp at hs
  | read k =>
    simp only [step] at hs
    split at hs
    · rename_i i r rest hp
      cases pc <;> simp at hs
      all_goals
        obtain ⟨-, rfl⟩ := hs
        cases r <;> exact ⟨rfl, rfl⟩
    · simp at hs
  | ret =>
    cases pc <;> cases mn <;> simp [step] at hs
    subst hs
    exact ⟨rfl, rfl⟩

theorem fuel_step {f : Int → Option ε} {s s' : State ε} {a : Action}
    (h : Inv s) (hs : step f s a = some s') : fuel s' < fuel s := by
  obtain ⟨hc, h0, hN, hI, hF, hB, hD, hP⟩ := h
  rcases s with ⟨n, m, pc, idx, wd, d, run, blk, mn, tr⟩
  simp only at hc h0 hN hI hF hB hD
  cases a with
  | genLocal =>
    cases pc <;> simp [step] at hs
    all_goals
      obtain ⟨-, rfl⟩ := hs
      simp [fuel]
  | issue =>
    cases d <;> simp [step] at hs
    cases pc <;> simp at hs
    · obtain ⟨hlt, rfl⟩ := hs
      simp only [fuel]
      omega
    · subst hs
      simp only [Phase] at hP
      simp only [fuel]
      omega
  | spawn =>
    cases d <;> simp [step] at hs
    subst hs
    simp only [fuel, List.length_cons]
    omega
  | invoke k =>
    simp only [step] at hs
    split at hs
    · rename_i i rest hp
      have hl := pick_length hp
      simp at hs
      subst hs
      simp only [fuel, List.length_cons]
      omega
    · simp at hs
  | read k =>
    simp only [step] at hs
    split at hs
    · rename_i i r rest hp
      have hl := pick_length hp
      cases pc <;> simp at hs
      all_goals
        obtain ⟨-, rfl⟩ := hs
        cases r <;> simp only [onResult, fuel] <;> omega
    · simp at hs
  | ret =>
    cases pc <;> cases mn <;> simp [step] at hs
    subst hs
    simp [fuel]

theorem inv_start (N M : Int) (hN : N ≠ 0) : Inv (start N M : State ε) := by
  simp only [start, hN, if_false]
  refine ⟨?_, le_refl _, Or.inr rfl, rfl, rfl, Or.inr rfl, by simp, ?_⟩
  · simp only; split <;> omega
  · simp [Phase, consumed, firstFailure]

theorem cnt_start (f : Int → Option ε) (N M : Int) (hN : N ≠ 0) :
    Cnt f (start N M : State ε) := by
  simp only [start, hN, if_false]
  refine ⟨?_, ?_, ?_, ?_, ?_⟩
  · intro i
    have : ¬ (0 ≤ i ∧ i < 0) := by omega
    simp [issued, this]
  · intro i; simp [issued, held, consumed]
  · intro i; simp [invoked, consumed]
  · intro p hp; simp at hp
  · intro i r hm; simp at hm

theorem exec_inv {f : Int → Option ε} : ∀ (sched : List Action) (s s' : State ε),
    Inv s → Cnt f s → exec f s sched = some s' →
      Inv s' ∧ Cnt f s' ∧ s'.numItems = s.numItems
        ∧ s'.maxParallelCount = s.maxParallelCount ∧ fuel s' + sched.length ≤ fuel s
  | [], s, s', hi, hc, h => by
    simp [exec] at h
    subst h
    exact ⟨hi, hc, rfl, rfl, by simp⟩
  | a :: as, s, s', hi, hc, h => by
    simp only [exec] at h
    split at h
    · rename_i s1 h1
      have hp := step_params h1
      have hf := fuel_step hi h1
      obtain ⟨i2, c2, n2, m2, f2⟩ :=
        exec_inv as s1 s' (inv_step hi h1) (cnt_step hi.idx0 hc h1) h
      refine ⟨i2, c2, by rw [n2, hp.1], by rw [m2, hp.2], ?_⟩
      simp only [List.length_cons]
      omega
    · simp at h

theorem reach_start {f : Int → Option ε} {N M : Int} (hN : N ≠ 0)
    {sched : List Action} {s : State ε} (h : exec f (start N M) sched = some s) :
    Inv s ∧ Cnt f s ∧ s.numItems = N
      ∧ s.maxParallelCount = (if M > N then N else M) ∧ sched.length ≤ 4 * N.toNat + 4 := by
  obtain ⟨i, c, n, m, fu⟩ := exec_inv sched _ _ (inv_start N M hN) (cnt_start f N M hN) h
  refine ⟨i, c, ?_, ?_, ?_⟩
  · rw [n]; simp [start, hN]
  · rw [m]; simp [start, hN]
  · have : fuel (start N M : State ε) = 4 * N.toNat + 4 := by
      simp [start, hN, fuel]
    omega

/-- With a result outstanding, a generator waiting on `resultChan` is never
stuck for good: a worker can deliver, compute, or be started. -/
theorem worker_move {f : Int → Option ε} (s : State ε)
    (hlive : (0 : Int) < ((held s.disp).length : Int) + (s.running.length : Int)
      + (s.blocked.length : Int))
    (hread : ∀ i r rest, pick 0 s.blocked = some ((i, r), rest) →
      ∃ s', step f s (.read 0) = some s') :
    ∃ a s', step f s a = some s' := by
  by_cases hb : s.blocked = []
  · by_cases hr : s.running = []
    · have hd : s.disp ≠ .idle ∧ s.disp ≠ .absent := by
        constructor <;> intro hd <;> simp [hd, hb, hr, held] at hlive
      cases hdd : s.disp with
      | absent => exact absurd hdd hd.2
      | idle => exact absurd hdd hd.1
      | holding i => exact ⟨.spawn, _, by simp only [step, hdd]; rfl⟩
    · obtain ⟨x, rest, hp⟩ := pick_zero_of_ne_nil hr
      exact ⟨.invoke 0, _, by simp only [step, hp]; rfl⟩
  · obtain ⟨⟨i, r⟩, rest, hp⟩ := pick_zero_of_ne_nil hb
    obtain ⟨s', h⟩ := hread i r rest hp
    exact ⟨_, s', h⟩

theorem progress {f : Int → Option ε} {s : State ε} (h : Inv s)
    (hm : 1 ≤ s.maxParallelCount) (hw : s.main = .waiting) :
    ∃ a s', step f s a = some s' := by
  obtain ⟨hc, h0, hN, hI, hF, hB, hD, hP⟩ := h
  cases hpc : s.pc with
  | fill =>
    by_cases hlt : s.index < s.maxParallelCount
    · cases hdd : s.disp with
      | absent => exact absurd hdd hD
      | idle => exact ⟨.issue, _, by simp only [step, hdd, hpc, hlt, if_true]; rfl⟩
      | holding i => exact ⟨.spawn, _, by simp only [step, hdd]; rfl⟩
    · exact ⟨.genLocal, _, by simp only [step, hpc, hlt, if_false]; rfl⟩
  | steady =>
    simp only [Phase, hpc] at hP
    by_cases hlt : s.index < s.numItems
    · apply worker_move s (by omega)
      intro i r rest hp
      exact ⟨_, by simp only [step, hp, hpc, hlt, if_true]; rfl⟩
    · exact ⟨.genLocal, _, by simp only [step, hpc, hlt, if_false]; rfl⟩
  | refill =>
    cases hdd : s.disp with
    | absent => exact absurd hdd hD
    | idle => exact ⟨.issue, _, by simp only [step, hdd, hpc]; rfl⟩
    | holding i => exact ⟨.spawn, _, by simp only [step, hdd]; rfl⟩
  | drain =>
    simp only [Phase, hpc] at hP
    by_cases hlt : s.workDone < s.numItems
    · apply worker_move s (by omega)
      intro i r rest hp
      exact ⟨_, by simp only [step, hp, hpc, hlt, if_true]; rfl⟩
    · exact ⟨.genLocal, _, by simp only [step, hpc, hlt, if_false]; rfl⟩
  | report e =>
    exact ⟨.ret, _, by simp only [step, hpc, hw]; rfl⟩
  | exited =>
    simp only [Phase, hpc] at hP
    rcases hP with ⟨h1, -⟩ | ⟨i, e, h1, -⟩ <;> simp [hw] at h1

theorem mem_consumed_of_read {i : Int} {r : Option ε} :
    ∀ {t : List (Event ε)}, Event.read i r ∈ t → i ∈ consumed t
  | [], h => by simp at h
  | ev :: t, h => by
    rcases List.mem_cons.mp h with rfl | h'
    · simp
    · have ih := mem_consumed_of_read h'
      cases ev <;> simp [ih]

theorem read_of_mem_consumed {i : Int} :
    ∀ {t : List (Event ε)}, i ∈ consumed t → ∃ r, Event.read i r ∈ t
  | [], h => by simp [consumed] at h
  | ev :: t, h => by
    cases ev with
    | read j r =>
      simp only [consumed_read, List.mem_cons] at h
      rcases h with rfl | h
      · exact ⟨r, List.mem_cons_self _ _⟩
      · obtain ⟨r', hr⟩ := read_of_mem_consumed h
        exact ⟨r', List.mem_cons_of_mem _ hr⟩
    | issue j =>
      obtain ⟨r', hr⟩ := read_of_mem_consumed (t := t) (by simpa using h)
      exact ⟨r', List.mem_cons_of_mem _ hr⟩
    | invoke j =>
      obtain ⟨r', hr⟩ := read_of_mem_consumed (t := t) (by simpa using h)
      exact ⟨r', List.mem_cons_of_mem _ hr⟩
    | ret j =>
      obtain ⟨r', hr⟩ := read_of_mem_consumed (t := t) (by simpa using h)
      exact ⟨r', List.mem_cons_of_mem _ hr⟩

theorem issue_of_mem_issued {i : Int} :
    ∀ {t : List (Event ε)}, i ∈ issued t → Event.issue i ∈ t
  | [], h => by simp [issued] at h
  | ev :: t, h => by
    cases ev with
    | issue j =>
      simp only [issued_issue, List.mem_cons] at h
      rcases h with rfl | h
      · exact List.mem_cons_self _ _
      · exact List.mem_cons_of_mem _ (issue_of_mem_issued h)
    | read j r => exact List.mem_cons_of_mem _ (issue_of_mem_issued (t := t) (by simpa using h))
    | invoke j => exact List.mem_cons_of_mem _ (issue_of_mem_issued (t := t) (by simpa using h))
    | ret j => exact List.mem_cons_of_mem _ (issue_of_mem_issued (t := t) (by simpa using h))

theorem firstFailure_mem {i : Int} {e : ε} :
    ∀ {t : List (Event ε)}, firstFailure t = some (i, e) → Event.read i (some e) ∈ t
  | [], h => by simp [firstFailure] at h
  | ev :: t, h => by
    cases hft : firstFailure t with
    | some x =>
      have : firstFailure (ev :: t) = some x := by simp only [firstFailure, hft]
      rw [this] at h
      exact List.mem_cons_of_mem _ (firstFailure_mem (t := t) (by rw [hft, h]))
    | none =>
      cases ev with
      | read j r =>
        cases r with
        | none => rw [firstFailure_read_none, hft] at h; simp at h
        | some e' =>
          rw [firstFailure_read_some j e' t hft] at h
          simp only [Option.some.injEq, Prod.mk.injEq] at h
          obtain ⟨rfl, rfl⟩ := h
          exact List.mem_cons_self _ _
      | issue j => rw [firstFailure_issue, hft] at h; simp at h
      | invoke j => rw [firstFailure_invoke, hft] at h; simp at h
      | ret j => rw [firstFailure_ret, hft] at h; simp at h

theorem firstFailure_none_read {i : Int} {r : Option ε} :
    ∀ {t : List (Event ε)}, firstFailure t = none → Event.read i r ∈ t → r = none
  | [], _, h => by simp at h
  | ev :: t, hff, h => by
    cases hft : firstFailure t with
    | some x =>
      have : firstFailure (ev :: t) = some x := by simp only [firstFailure, hft]
      rw [this] at hff
      simp at hff
    | none =>
      rcases List.mem_cons.mp h with rfl | h'
      · cases r with
        | none => rfl
        | some e => rw [firstFailure_read_some i e t hft] at hff; simp at hff
      · exact firstFailure_none_read hft h'

/-- In a state where `Iterate` has returned, the generator has exited and the
returned value is `nil` after `numItems` clean reads, or the first failure. -/
theorem returned_phase {s : State ε} (h : Inv s) {r : Option ε}
    (hr : s.main = .returned r) :
    s.pc = .exited ∧
    ((r = none ∧ firstFailure s.trace = none ∧ s.numItems ≤ s.index
        ∧ s.numItems ≤ ((consumed s.trace).length : Int))
      ∨ (∃ i e, r = some e ∧ firstFailure s.trace = some (i, e))) := by
  have hP := h.phase
  cases hpc : s.pc with
  | exited =>
    refine ⟨rfl, ?_⟩
    simp only [Phase, hpc] at hP
    rcases hP with ⟨h1, h2, h3, h4⟩ | ⟨i, e, h1, h2⟩
    · rw [hr] at h1
      simp only [Main.returned.injEq] at h1
      exact Or.inl ⟨h1, h2, h3, h4⟩
    · rw [hr] at h1
      simp only [Main.returned.injEq] at h1
      exact Or.inr ⟨i, e, h1, h2⟩
  | report e =>
    cases e <;> simp [Phase, hpc, hr] at hP
  | fill => simp [Phase, hpc, hr] at hP
  | steady => simp [Phase, hpc, hr] at hP
  | refill => simp [Phase, hpc, hr] at hP
  | drain => simp [Phase, hpc, hr] at hP

/-- After a return with `nil`, nothing is in flight. -/
theorem nil_return_quiet {s : State ε} (h : Inv s)
    (h3 : s.numItems ≤ s.index) (h4 : s.numItems ≤ ((consumed s.trace).length : Int)) :
    held s.disp = [] ∧ s.running = [] ∧ s.blocked = []
      ∧ (s.index = s.numItems ∨ s.index = 0) := by
  have hF := h.flight
  have hN := h.idxN
  have h0 := h.idx0
  have a1 : (held s.disp).length = 0 := by omega
  have a2 : s.running.length = 0 := by omega
  have a3 : s.blocked.length = 0 := by omega
  refine ⟨List.length_eq_zero.mp a1, List.length_eq_zero.mp a2, List.length_eq_zero.mp a3, ?_⟩
  omega

theorem clamp_ge_one {N M : Int} (hN : 0 < N) (hM : 1 ≤ M) :
    1 ≤ (if M > N then N else M) := by
  split <;> omega

theorem clamp_le {N M : Int} : (if M > N then N else M) ≤ M := by
  split <;> omega

/-- C1: with `numItems > 0`, `maxParallelCount ≥ 1` and a `processingFunc` that
returns nil on `[0, numItems)`, under every schedule: a state in which
`Iterate` has returned has the result nil and `processingFunc` was called
exactly once with each index of `[0, numItems)` and with no other index; a
state in which it has not returned has an enabled move (no deadlock); and no
run is longer than `4 * numItems + 4` moves, so every run can be completed
and every maximal run is a complete one. -/
theorem iterate_all_succeed (N M : Int) (f : Int → Option ε)
    (hN : 0 < N) (hM : 1 ≤ M) (hf : ∀ i, 0 ≤ i → i < N → f i = none)
    (sched : List Action) (s : State ε) (h : exec f (start N M) sched = some s) :
    (∀ r, s.main = .returned r →
        r = none ∧ ∀ i, (invoked s.trace).count i = if 0 ≤ i ∧ i < N then 1 else 0)
      ∧ (s.main = .waiting → ∃ a s', step f s a = some s')
      ∧ sched.length ≤ 4 * N.toNat + 4 := by
  obtain ⟨hi, hc, hn, hm, hl⟩ := reach_start (ne_of_gt hN) h
  refine ⟨?_, ?_, hl⟩
  · intro r hr
    obtain ⟨-, hph⟩ := returned_phase hi hr
    rcases hph with ⟨rfl, -, h3, h4⟩ | ⟨i, e, rfl, hff⟩
    · refine ⟨rfl, ?_⟩
      obtain ⟨q1, q2, q3, q4⟩ := nil_return_quiet hi h3 h4
      intro j
      have e1 := hc.inv j
      have e2 := hc.split j
      have e3 := hc.issCnt j
      have hidx : s.index = N := by omega
      rw [q1, q2, q3] at e2
      rw [q3] at e1
      simp only [List.count_nil, List.map_nil, Nat.zero_add] at e1 e2
      rw [e1, ← e2, e3, hidx]
    · exfalso
      have hmem := firstFailure_mem hff
      have hfi := hc.readVal i _ hmem
      have hcons : 0 < (consumed s.trace).count i :=
        List.count_pos_iff.mpr (mem_consumed_of_read hmem)
      have e2 := hc.split i
      have e3 := hc.issCnt i
      have hrange : 0 ≤ i ∧ i < s.index := by
        by_contra hcon
        rw [if_neg hcon] at e3
        omega
      have hidx := hi.idxN
      have := hf i hrange.1 (by omega)
      rw [this] at hfi
      simp at hfi
  · intro hw
    exact progress hi (by rw [hm]; exact clamp_ge_one hN hM) hw

/-- C2: with `numItems > 0` and `maxParallelCount ≥ 1`, in every reachable
state the number of indices issued on `workChan` whose result has not been
read from `resultChan` is at most `maxParallelCount`; these are exactly the
index held by the dispatcher and the workers that exist. -/
theorem iterate_bounded (N M : Int) (f : Int → Option ε)
    (hN : 0 < N) (hM : 1 ≤ M)
    (sched : List Action) (s : State ε) (h : exec f (start N M) sched = some s) :
    outstanding s ≤ M
      ∧ outstanding s = ((held s.disp).length : Int) + (s.running.length : Int)
          + (s.blocked.length : Int) := by
  obtain ⟨hi, -, -, hm, -⟩ := reach_start (ne_of_gt hN) h
  have hF := hi.flight
  have hB := hi.bound
  have hI := hi.issLen
  have hle : s.maxParallelCount ≤ M := by rw [hm]; exact clamp_le
  simp only [outstanding]
  constructor <;> omega

/-- C3: with `numItems > 0`, `maxParallelCount ≥ 1` and a `processingFunc` that
fails for some `k` in `[0, numItems)`, under every schedule: a state in which
`Iterate` has returned has a non-nil result `e`, which is the first non-nil
value read from `resultChan` and is `processingFunc i` for the index `i` in
`[0, numItems)` it was read for, so it is `processingFunc k` when `k` is the
only failing index; a state in which it has not returned has an enabled move;
and no run is longer than `4 * numItems + 4` moves. -/
theorem iterate_failure (N M : Int) (f : Int → Option ε)
    (hN : 0 < N) (hM : 1 ≤ M) (k : Int) (hk0 : 0 ≤ k) (hkN : k < N) (hfk : f k ≠ none)
    (sched : List Action) (s : State ε) (h : exec f (start N M) sched = some s) :
    (∀ r, s.main = .returned r →
        ∃ i e, r = some e ∧ firstFailure s.trace = some (i, e) ∧ f i = some e
          ∧ 0 ≤ i ∧ i < N
          ∧ ((∀ j, 0 ≤ j → j < N → f j ≠ none → j = k) → r = f k))
      ∧ (s.main = .waiting → ∃ a s', step f s a = some s')
      ∧ sched.length ≤ 4 * N.toNat + 4 := by
  obtain ⟨hi, hc, hn, hm, hl⟩ := reach_start (ne_of_gt hN) h
  refine ⟨?_, ?_, hl⟩
  · intro r hr
    obtain ⟨-, hph⟩ := returned_phase hi hr
    rcases hph with ⟨rfl, hff, h3, h4⟩ | ⟨i, e, rfl, hff⟩
    · exfalso
      obtain ⟨q1, q2, q3, q4⟩ := nil_return_quiet hi h3 h4
      have e2 := hc.split k
      have e3 := hc.issCnt k
      have hidx : s.index = N := by omega
      rw [q1, q2, q3] at e2
      simp only [List.count_nil, List.map_nil, Nat.zero_add] at e2
      rw [hidx, if_pos ⟨hk0, hkN⟩] at e3
      have hmem : k ∈ consumed s.trace := List.count_pos_iff.mp (by omega)
      obtain ⟨r, hr'⟩ := read_of_mem_consumed hmem
      have h1 := hc.readVal k r hr'
      have h2 := firstFailure_none_read hff hr'
      exact hfk (by rw [← h1, h2])
    · have hmem := firstFailure_mem hff
      have hfi := hc.readVal i _ hmem
      have hcons : 0 < (consumed s.trace).count i :=
        List.count_pos_iff.mpr (mem_consumed_of_read hmem)
      have e2 := hc.split i
      have e3 := hc.issCnt i
      have hrange : 0 ≤ i ∧ i < s.index := by
        by_contra hcon
        rw [if_neg hcon] at e3
        omega
      have hidx := hi.idxN
      have hiN : i < N := by omega
      refine ⟨i, e, rfl, hff, hfi.symm, hrange.1, hiN, ?_⟩
      intro honly
      have := honly i hrange.1 hiN (by rw [← hfi]; simp)
      rw [← this, ← hfi]
  · intro hw
    exact progress hi (by rw [hm]; exact clamp_ge_one hN hM) hw

theorem step_start_zero (f : Int → Option ε) (M : Int) (a : Action) :
    step f (start 0 M : State ε) a = none := by
  cases a <;> simp [step, start, pick]

/-- C5: for every `maxParallelCount` and `processingFunc`, a call with
`numItems = 0` has returned nil in its first state, no move is possible from
it, `processingFunc` is never called and no goroutine exists. -/
theorem iterate_zero (M : Int) (f : Int → Option ε)
    (sched : List Action) (s : State ε) (h : exec f (start 0 M) sched = some s) :
    sched = [] ∧ s.main = .returned none ∧ invoked s.trace = [] ∧ issued s.trace = []
      ∧ liveTasks s = 0 := by
  cases sched with
  | nil =>
    simp only [exec, Option.some.injEq] at h
    subst h
    simp [start, invoked, issued, liveTasks]
  | cons a as =>
    simp [exec, step_start_zero] at h

theorem invoked_nil_of_quiet {f : Int → Option ε} {s : State ε} (hc : Cnt f s)
    (hb : s.blocked = []) (hr : consumed s.trace = []) : invoked s.trace = [] := by
  apply List.eq_nil_iff_forall_not_mem.mpr
  intro j hj
  have e1 := hc.inv j
  rw [hb, hr] at e1
  have : 0 < (invoked s.trace).count j := List.count_pos_iff.mpr hj
  simp at e1
  omega

/-- With `numItems > 0` and `maxParallelCount ≤ 0` a run is empty or is the
generator leaving its first loop. -/
theorem budget_states (N M : Int) (f : Int → Option ε) (hN : 0 < N) (hM : M ≤ 0)
    (sched : List Action) (s : State ε) (h : exec f (start N M) sched = some s) :
    (sched = [] ∧ s = start N M)
      ∨ (sched = [.genLocal] ∧ s = { (start N M : State ε) with pc := .steady }) := by
  have hN0 : N ≠ 0 := ne_of_gt hN
  have hMN : ¬ M > N := by omega
  have hM0 : ¬ (0 : Int) < M := by omega
  cases sched with
  | nil =>
    simp only [exec, Option.some.injEq] at h
    exact Or.inl ⟨rfl, h.symm⟩
  | cons a as =>
    simp only [exec] at h
    cases a <;> simp [step, start, hN0, hMN, hM0, pick] at h
    cases as with
    | nil =>
      simp only [exec, Option.some.injEq] at h
      subst h
      exact Or.inr ⟨rfl, by simp [start, hN0, hMN]⟩
    | cons b bs =>
      simp only [exec] at h
      cases b <;> simp [step, hN, pick] at h

/-- C6 (as the code behaves): with `numItems > 0` and `maxParallelCount ≤ 0`,
under every schedule `Iterate` has not returned, nothing was issued and
`processingFunc` was not called; a run has at most one move (the generator
leaving its first loop), after which no move is enabled: the call hangs. -/
theorem iterate_nonpositive_budget_hangs (N M : Int) (f : Int → Option ε)
    (hN : 0 < N) (hM : M ≤ 0)
    (sched : List Action) (s : State ε) (h : exec f (start N M) sched = some s) :
    s.main = .waiting ∧ invoked s.trace = [] ∧ issued s.trace = []
      ∧ sched.length ≤ 1 ∧ (sched.length = 1 → ∀ a, step f s a = none) := by
  have hN0 : N ≠ 0 := ne_of_gt hN
  have hMN : ¬ M > N := by omega
  rcases budget_states N M f hN hM sched s h with ⟨rfl, rfl⟩ | ⟨rfl, rfl⟩
  · simp [start, hN0, invoked, issued]
  · refine ⟨by simp [start, hN0], by simp [start, hN0, invoked],
      by simp [start, hN0, issued], by simp, ?_⟩
    intro _ b
    cases b <;> simp [step, start, hN0, hMN, hN, pick]

/-- With `numItems < 0` the generator never issues an index. -/
theorem negative_quiet {s : State ε} (hi : Inv s) (hN : s.numItems < 0) :
    s.index = 0 ∧ consumed s.trace = [] ∧ s.blocked = [] ∧ issued s.trace = [] := by
  have h0 := hi.idx0
  have hidx : s.index = 0 := by have := hi.idxN; omega
  have hF := hi.flight
  have hI := hi.issLen
  exact ⟨hidx, List.length_eq_zero.mp (by omega), List.length_eq_zero.mp (by omega),
    List.length_eq_zero.mp (by omega)⟩

/-- C7 (as the code behaves): with `numItems < 0`, for every
`maxParallelCount` and `processingFunc`, under every schedule: a state in
which `Iterate` has returned has the result nil; nothing is ever issued and
`processingFunc` is never called; a state in which it has not returned has an
enabled move; and no run is longer than 4 moves. -/
theorem iterate_negative_items_nil (N M : Int) (f : Int → Option ε) (hN : N < 0)
    (sched : List Action) (s : State ε) (h : exec f (start N M) sched = some s) :
    (∀ r, s.main = .returned r → r = none)
      ∧ invoked s.trace = [] ∧ issued s.trace = []
      ∧ (s.main = .waiting → ∃ a s', step f s a = some s')
      ∧ sched.length ≤ 4 := by
  obtain ⟨hi, hc, hn, hm, hl⟩ := reach_start (ne_of_lt hN) h
  obtain ⟨hidx, hcons, hblk, hiss⟩ := negative_quiet hi (by omega)
  have h0 := hi.idx0
  refine ⟨?_, invoked_nil_of_quiet hc hblk hcons, hiss, ?_, ?_⟩
  · intro r hr
    obtain ⟨-, hph⟩ := returned_phase hi hr
    rcases hph with ⟨rfl, -⟩ | ⟨i, e, rfl, hff⟩
    · rfl
    · have := mem_consumed_of_read (firstFailure_mem hff)
      rw [hcons] at this
      simp at this
  · intro hw
    have hP := hi.phase
    have hclamp := hi.clamp
    cases hpc : s.pc with
    | fill =>
      have hlt : ¬ s.index < s.maxParallelCount := by omega
      exact ⟨.genLocal, _, by simp only [step, hpc, hlt, if_false]; rfl⟩
    | steady =>
      have hlt : ¬ s.index < s.numItems := by omega
      exact ⟨.genLocal, _, by simp only [step, hpc, hlt, if_false]; rfl⟩
    | refill =>
      simp only [Phase, hpc] at hP
      omega
    | drain =>
      simp only [Phase, hpc] at hP
      have hlt : ¬ s.workDone < s.numItems := by omega
      exact ⟨.genLocal, _, by simp only [step, hpc, hlt, if_false]; rfl⟩
    | report e =>
      exact ⟨.ret, _, by simp only [step, hpc, hw]; rfl⟩
    | exited =>
      simp only [Phase, hpc] at hP
      rcases hP with ⟨h1, -⟩ | ⟨i, e, h1, -⟩ <;> simp [hw] at h1
  · have : N.toNat = 0 := by omega
    omega

/-- C8: for `N > 0` and `M > N`, the calls `Iterate(N, M, f)` and
`Iterate(N, N, f)` start in the same state (line 10 has replaced `M` by `N`
before any goroutine exists), so every schedule is a run of one exactly when
it is a run of the other, with the same resulting state and history. -/
theorem iterate_clamp_equiv (N M : Int) (f : Int → Option ε) (hN : 0 < N) (hM : N < M) :
    (start N M : State ε) = start N N
      ∧ ∀ sched : List Action, exec f (start N M) sched = exec f (start N N) sched := by
  have hs : (start N M : State ε) = start N N := by
    have h1 : M > N := hM
    have h2 : N ≠ 0 := ne_of_gt hN
    simp [start, h1, h2]
  exact ⟨hs, fun sched => by rw [hs]⟩

/-- C4 (as the code behaves): for `numItems ≠ 0`, in every state in which
`Iterate` has returned the generator has finished, the dispatcher goroutine
still exists, and no index has had its result consumed more than once; when
the returned value is nil, every issued index has had its result consumed
exactly once, no worker is left, and the dispatcher, blocked on `workChan`,
is the only goroutine of the call that remains. -/
theorem iterate_return_state (N M : Int) (f : Int → Option ε) (hN : N ≠ 0)
    (sched : List Action) (s : State ε) (h : exec f (start N M) sched = some s)
    (r : Option ε) (hr : s.main = .returned r) :
    s.pc = .exited ∧ s.disp ≠ .absent
      ∧ (∀ i, (consumed s.trace).count i ≤ 1)
      ∧ (r = none →
          (∀ i, i ∈ issued s.trace → (consumed s.trace).count i = 1)
            ∧ s.running = [] ∧ s.blocked = [] ∧ s.disp = .idle ∧ liveTasks s = 1) := by
  obtain ⟨hi, hc, hn, hm, hl⟩ := reach_start hN h
  obtain ⟨hpc, hph⟩ := returned_phase hi hr
  refine ⟨hpc, hi.dispLive, ?_, ?_⟩
  · intro i
    have e2 := hc.split i
    have e3 := hc.issCnt i
    split at e3 <;> omega
  · rintro rfl
    rcases hph with ⟨-, -, h3, h4⟩ | ⟨i, e, h1, -⟩
    · obtain ⟨q1, q2, q3, -⟩ := nil_return_quiet hi h3 h4
      have hd : s.disp = .idle := by
        cases hdd : s.disp with
        | absent => exact absurd hdd hi.dispLive
        | idle => rfl
        | holding j => rw [hdd] at q1; simp [held] at q1
      refine ⟨?_, q2, q3, hd, ?_⟩
      · intro i hmem
        have e2 := hc.split i
        have e3 := hc.issCnt i
        have : 0 < (issued s.trace).count i := List.count_pos_iff.mpr hmem
        rw [q1, q2, q3] at e2
        simp only [List.count_nil, List.map_nil, Nat.zero_add] at e2
        split at e3 <;> omega
      · simp [liveTasks, hpc, hd, q2, q3]
    · simp at h1

/-- What a transition adds to the history, and from where. -/
theorem step_trace {f : Int → Option ε} {s s' : State ε} {a : Action}
    (hs : step f s a = some s') :
    s'.trace = s.trace
      ∨ (∃ j, s'.trace = Event.issue j :: s.trace ∧ (s.pc = .fill ∨ s.pc = .refill))
      ∨ (∃ j, s'.trace = Event.invoke j :: s.trace ∧ j ∈ s.running)
      ∨ (∃ j r, s'.trace = Event.read j r :: s.trace)
      ∨ (∃ r, s'.trace = Event.ret r :: s.trace) := by
  rcases s with ⟨n, m, pc, idx, wd, d, run, blk, mn, tr⟩
  cases a with
  | genLocal =>
    cases pc <;> simp [step] at hs
    all_goals
      obtain ⟨-, rfl⟩ := hs
      exact Or.inl rfl
  | issue =>
    cases d <;> simp [step] at hs
    cases pc <;> simp at hs
    · obtain ⟨-, rfl⟩ := hs
      exact Or.inr (Or.inl ⟨idx, rfl, Or.inl rfl⟩)
    · subst hs
      exact Or.inr (Or.inl ⟨idx, rfl, Or.inr rfl⟩)
  | spawn =>
    cases d <;> simp [step] at hs
    subst hs
    exact Or.inl rfl
  | invoke k =>
    simp only [step] at hs
    split at hs
    · rename_i i rest hp
      simp at hs
      subst hs
      have hmem : i ∈ run := (pick_perm _ _ _ _ hp).mem_iff.mpr (List.mem_cons_self _ _)
      exact Or.inr (Or.inr (Or.inl ⟨i, rfl, hmem⟩))
    · simp at hs
  | read k =>
    simp only [step] at hs
    split at hs
    · rename_i i r rest hp
      cases pc <;> simp at hs
      all_goals
        obtain ⟨-, rfl⟩ := hs
        cases r <;> exact Or.inr (Or.inr (Or.inr (Or.inl ⟨i, _, rfl⟩)))
    · simp at hs
  | ret =>
    cases pc <;> cases mn <;> simp [step] at hs
    rename_i e
    subst hs
    exact Or.inr (Or.inr (Or.inr (Or.inr ⟨e, rfl⟩)))

theorem noIssue_cons {t : List (Event ε)} {ev : Event ε} (h : NoIssueAfterFailure t)
    (h1 : ∀ j, ev = Event.issue j → ∀ i e, Event.read i (some e) ∉ t)
    (h2 : ∀ j, ev = Event.invoke j → Event.issue j ∈ t) :
    NoIssueAfterFailure (ev :: t) := by
  intro later earlier i e hsplit
  cases later with
  | nil => exact ⟨fun j hj => by simp at hj, fun j hj => by simp at hj⟩
  | cons x later' =>
    simp only [List.cons_append, List.cons.injEq] at hsplit
    obtain ⟨rfl, rfl⟩ := hsplit
    obtain ⟨a1, a2⟩ := h later' earlier i e rfl
    constructor
    · intro j hj
      rcases List.mem_cons.mp hj with hj | hj
      · exact h1 j hj.symm i e (by simp)
      · exact a1 j hj
    · intro j hj
      rcases List.mem_cons.mp hj with hj | hj
      · have := h2 j hj.symm
        rcases List.mem_append.mp this with hm | hm
        · exact absurd hm (a1 j)
        · rcases List.mem_cons.mp hm with hm | hm
          · cases hm
          · exact hm
      · exact a2 j hj

theorem noIssue_step {f : Int → Option ε} {s s' : State ε} {a : Action}
    (hi : Inv s) (hc : Cnt f s) (h : NoIssueAfterFailure s.trace)
    (hs : step f s a = some s') : NoIssueAfterFailure s'.trace := by
  rcases step_trace hs with ht | ⟨j, ht, hpc⟩ | ⟨j, ht, hrun⟩ | ⟨j, r, ht⟩ | ⟨r, ht⟩
  · rw [ht]; exact h
  · rw [ht]
    apply noIssue_cons h
    · intro _ _ i e hmem
      have hP := hi.phase
      have hff : firstFailure s.trace = none := by
        rcases hpc with hpc | hpc <;> simp only [Phase, hpc] at hP
        · exact hP.2.2.2.1
        · exact hP.2.2.2.1
      have := firstFailure_none_read hff hmem
      simp at this
    · intro _ hj; cases hj
  · rw [ht]
    apply noIssue_cons h
    · intro _ hj; cases hj
    · intro j' hj
      cases hj
      have e2 := hc.split j
      have : 0 < s.running.count j := List.count_pos_iff.mpr hrun
      exact issue_of_mem_issued (List.count_pos_iff.mp (by omega))
  · rw [ht]
    exact noIssue_cons h (fun _ hj => by cases hj) (fun _ hj => by cases hj)
  · rw [ht]
    exact noIssue_cons h (fun _ hj => by cases hj) (fun _ hj => by cases hj)

theorem exec_noIssue {f : Int → Option ε} : ∀ (sched : List Action) (s s' : State ε),
    Inv s → Cnt f s → NoIssueAfterFailure s.trace → exec f s sched = some s' →
      NoIssueAfterFailure s'.trace
  | [], s, s', _, _, hq, h => by
    simp [exec] at h
    subst h
    exact hq
  | a :: as, s, s', hi, hc, hq, h => by
    simp only [exec] at h
    split at h
    · rename_i s1 h1
      exact exec_noIssue as s1 s' (inv_step hi h1) (cnt_step hi.idx0 hc h1)
        (noIssue_step hi hc hq h1) h
    · simp at h

/-- C9: in every run of `Iterate`, wherever the history splits around a read
of a non-nil result, no index is issued on `workChan` after that read, and
every index `processingFunc` is called with after it was issued before it. -/
theorem iterate_no_issue_after_failure (N M : Int) (f : Int → Option ε)
    (sched : List Action) (s : State ε) (h : exec f (start N M) sched = some s)
    (later earlier : List (Event ε)) (i : Int) (e : ε)
    (hsplit : s.trace = later ++ Event.read i (some e) :: earlier) :
    (∀ j, Event.issue j ∉ later)
      ∧ (∀ j, Event.invoke j ∈ later → Event.issue j ∈ earlier) := by
  by_cases hN : N = 0
  · subst hN
    have hs : s = start 0 M := by
      cases sched with
      | nil => simpa [exec] using h.symm
      | cons a as => simp [exec, step_start_zero] at h
    rw [hs] at hsplit
    cases later with
    | nil => simp [start] at hsplit
    | cons x l =>
      simp only [start, if_true, List.cons_append, List.cons.injEq] at hsplit
      have := hsplit.2
      simp at this
  · have hq : NoIssueAfterFailure (start N M : State ε).trace := by
      intro later earlier i e hsp
      simp [start, hN] at hsp
    exact exec_noIssue sched _ _ (inv_start N M hN) (cnt_start f N M hN) hq h
      later earlier i e hsplit

/-- Scenario A: the run `scenarioA` of `Iterate(5, 2, alwaysNil)` returns nil
with every index of `[0, 5)` invoked once. -/
theorem iterate_all_succeed_witness :
    ∃ s : State Nat, exec alwaysNil (start 5 2) scenarioA = some s
      ∧ s.main = .returned none
      ∧ (∀ i, (invoked s.trace).count i = if 0 ≤ i ∧ i < 5 then 1 else 0)
      ∧ scenarioA.length ≤ 4 * (5 : Int).toNat + 4 :=
  have h := iterate_all_succeed 5 2 alwaysNil (by decide) (by decide) (fun _ _ _ => rfl)
    scenarioA _ rfl
  ⟨_, rfl, rfl, (h.1 none rfl).2, h.2.2⟩

/-- Scenario A at its peak: after two indices were issued, two are outstanding. -/
theorem iterate_bounded_witness :
    ∃ s : State Nat, exec alwaysNil (start 5 2) [.issue, .spawn, .issue] = some s
      ∧ outstanding s = 2 ∧ outstanding s ≤ 2
      ∧ outstanding s = ((held s.disp).length : Int) + (s.running.length : Int)
          + (s.blocked.length : Int) :=
  have h := iterate_bounded 5 2 alwaysNil (by decide) (by decide)
    [.issue, .spawn, .issue] _ rfl
  ⟨_, rfl, rfl, h.1, h.2⟩

/-- Scenario B: the run `scenarioB` of `Iterate(10, 3, failsAt 4)` returns the
error of index 4. -/
theorem iterate_failure_witness :
    ∃ s : State Nat, exec (failsAt 4) (start 10 3) scenarioB = some s
      ∧ s.main = .returned (some 7)
      ∧ firstFailure s.trace = some (4, 7)
      ∧ (some 7 : Option Nat) = failsAt 4 4 := by
  have h := iterate_failure 10 3 (failsAt 4) (by decide) (by decide) 4 (by decide)
    (by decide) (by decide) scenarioB _ rfl
  obtain ⟨i, e, -, -, -, -, -, h6⟩ := h.1 (some 7) rfl
  refine ⟨_, rfl, rfl, rfl, h6 ?_⟩
  intro j _ _ hj
  by_contra hne
  exact hj (by simp [failsAt, hne])

/-- A call with `numItems = 0` and `maxParallelCount = 3`. -/
theorem iterate_zero_witness :
    exec alwaysNil (start 0 3) [] = some (start 0 3)
      ∧ ([] : List Action) = [] ∧ (start 0 3 : State Nat).main = .returned none
      ∧ invoked (start 0 3 : State Nat).trace = []
      ∧ issued (start 0 3 : State Nat).trace = []
      ∧ liveTasks (start 0 3 : State Nat) = 0 :=
  ⟨rfl, iterate_zero 3 alwaysNil [] (start 0 3) rfl⟩

/-- C4 fails on the code: the complete run `runOne` of `Iterate(1, 1, alwaysNil)`
returns nil with the dispatcher still blocked on `workChan`, and the run
`runFail` of `Iterate(2, 2, failsAt 0)` returns the error while the worker for
index 1 is blocked in its send, its result never consumed. -/
theorem iterate_leaks :
    (∃ s : State Nat, exec alwaysNil (start 1 1) runOne = some s
        ∧ s.main = .returned none ∧ s.disp = .idle ∧ liveTasks s = 1)
      ∧ (∃ s : State Nat, exec (failsAt 0) (start 2 2) runFail = some s
          ∧ s.main = .returned (some 7) ∧ s.blocked = [(1, none)]
          ∧ 1 ∈ issued s.trace ∧ 1 ∉ consumed s.trace ∧ liveTasks s = 2) :=
  ⟨⟨_, rfl, rfl, rfl, rfl⟩, ⟨_, rfl, rfl, rfl, by decide, by decide, rfl⟩⟩

/-- The complete run `runOne` of `Iterate(1, 1, alwaysNil)`: only the dispatcher
is left. -/
theorem iterate_return_state_witness :
    ∃ s : State Nat, exec alwaysNil (start 1 1) runOne = some s
      ∧ s.main = .returned none ∧ s.pc = .exited ∧ s.disp ≠ .absent
      ∧ (∀ i, (consumed s.trace).count i ≤ 1)
      ∧ (∀ i, i ∈ issued s.trace → (consumed s.trace).count i = 1)
      ∧ s.running = [] ∧ s.blocked = [] ∧ s.disp = .idle ∧ liveTasks s = 1 :=
  have h := iterate_return_state 1 1 alwaysNil (by decide) runOne _ rfl none rfl
  ⟨_, rfl, rfl, h.1, h.2.1, h.2.2.1, h.2.2.2 rfl⟩

/-- C6 fails on the code: no run of `Iterate(1, 0, alwaysNil)` returns. -/
theorem iterate_budget_zero_never_returns :
    ¬ ∃ (sched : List Action) (s : State Nat) (r : Option Nat),
        exec alwaysNil (start 1 0) sched = some s ∧ s.main = .returned r := by
  rintro ⟨sched, s, r, h, hr⟩
  rcases budget_states 1 0 alwaysNil (by decide) (by decide) sched s h with
    ⟨-, rfl⟩ | ⟨-, rfl⟩ <;> simp [start] at hr

/-- The run of `Iterate(1, 0, alwaysNil)`: one local move, then nothing. -/
theorem iterate_nonpositive_budget_hangs_witness :
    ∃ s : State Nat, exec alwaysNil (start 1 0) [.genLocal] = some s
      ∧ s.main = .waiting ∧ invoked s.trace = [] ∧ issued s.trace = []
      ∧ ∀ a, step alwaysNil s a = none :=
  have h := iterate_nonpositive_budget_hangs 1 0 alwaysNil (by decide) (by decide)
    [.genLocal] _ rfl
  ⟨_, rfl, h.1, h.2.1, h.2.2.1, h.2.2.2.2 rfl⟩

/-- C7 fails on the code: the run `runNegative` of `Iterate(-1, 1, failsAt 0)`
returns nil, and no run of it returns an error. -/
theorem iterate_negative_returns_nil :
    (∃ s : State Nat, exec (failsAt 0) (start (-1) 1) runNegative = some s
        ∧ s.main = .returned none)
      ∧ ¬ ∃ (sched : List Action) (s : State Nat) (e : Nat),
          exec (failsAt 0) (start (-1) 1) sched = some s ∧ s.main = .returned (some e) := by
  refine ⟨⟨_, rfl, rfl⟩, ?_⟩
  rintro ⟨sched, s, e, h, hr⟩
  obtain ⟨hi, -, hn, -, -⟩ := reach_start (by decide) h
  obtain ⟨-, hcons, -, -⟩ := negative_quiet hi (by rw [hn]; decide)
  obtain ⟨-, hph⟩ := returned_phase hi hr
  rcases hph with ⟨h1, -⟩ | ⟨i, e', -, hff⟩
  · cases h1
  · have := mem_consumed_of_read (firstFailure_mem hff)
    rw [hcons] at this
    simp at this

/-- The run `runNegative` of `Iterate(-1, 1, failsAt 0)`. -/
theorem iterate_negative_items_nil_witness :
    ∃ s : State Nat, exec (failsAt 0) (start (-1) 1) runNegative = some s
      ∧ s.main = .returned none ∧ invoked s.trace = [] ∧ issued s.trace = []
      ∧ runNegative.length ≤ 4 :=
  have h := iterate_negative_items_nil (-1) 1 (failsAt 0) (by decide) runNegative _ (by rfl)
  ⟨_, rfl, rfl, h.2.1, h.2.2.1, h.2.2.2.2⟩

/-- Scenario C: `Iterate(1, 5, alwaysNil)` runs as `Iterate(1, 1, alwaysNil)`, and
the run `runOne` invokes index 0 once. -/
theorem iterate_clamp_equiv_witness :
    (start 1 5 : State Nat) = start 1 1
      ∧ exec alwaysNil (start 1 5) runOne = exec alwaysNil (start 1 1) runOne
      ∧ (exec alwaysNil (start 1 5) runOne).map (fun s => invoked s.trace) = some [0] :=
  have h := iterate_clamp_equiv 1 5 alwaysNil (by decide) (by decide)
  ⟨h.1, h.2 runOne, rfl⟩

/-- The run `runLate` of `Iterate(3, 2, failsAt 0)`: after the failure of index
0 is read, index 1 is still invoked; it was issued before the read, and
index 2 is never issued. -/
theorem iterate_no_issue_after_failure_witness :
    (∃ s : State Nat, exec (failsAt 0) (start 3 2) runLate = some s
        ∧ s.trace = [Event.ret (some 7), Event.invoke 1] ++ Event.read 0 (some 7)
            :: [Event.invoke 0, Event.issue 1, Event.issue 0])
      ∧ (∀ j, Event.issue j ∉ [Event.ret (some 7), (Event.invoke 1 : Event Nat)])
      ∧ (∀ j, Event.invoke j ∈ [Event.ret (some 7), (Event.invoke 1 : Event Nat)] →
          Event.issue j ∈ [Event.invoke 0, Event.issue 1, (Event.issue 0 : Event Nat)]) :=
  have h := iterate_no_issue_after_failure 3 2 (failsAt 0) runLate _ rfl
    [Event.ret (some 7), Event.invoke 1] [Event.invoke 0, Event.issue 1, Event.issue 0]
    0 7 rfl
  ⟨⟨_, rfl, rfl⟩, h.1, h.2⟩

end Iterate

namespace Sql

variable {τ E : Type}

theorem addShard_shape (newShard : Int → Except E τ) (s : ShardSet τ) (i : Nat) :
    (ShardSet.addShard newShard s i).1.shards.length = s.shards.length
      ∧ (ShardSet.addShard newShard s i).1.numShards = s.numShards
      ∧ (ShardSet.addShard newShard s i).1.maxShards = s.maxShards := by
  simp only [ShardSet.addShard]
  split <;> simp

theorem connectLoop_shape (newShard : Int → Except E τ) :
    ∀ (n i : Nat) (s : ShardSet τ),
      (ShardSet.connectLoop newShard n i s).1.shards.length = s.shards.length
        ∧ (ShardSet.connectLoop newShard n i s).1.numShards = s.numShards
        ∧ (ShardSet.connectLoop newShard n i s).1.maxShards = s.maxShards
  | 0, _, s => by simp [ShardSet.connectLoop]
  | n + 1, i, s => by
    have h := addShard_shape newShard s i
    simp only [ShardSet.connectLoop]
    split
    · rename_i s1 e he
      rw [he] at h
      exact h
    · rename_i s1 he
      rw [he] at h
      obtain ⟨a, b, c⟩ := connectLoop_shape newShard n (i + 1) s1
      exact ⟨a.trans h.1, b.trans h.2.1, c.trans h.2.2⟩

/-- A `Connect` that does not panic leaves a slice of length `numShards` and
does not change `numShards` or `maxShards`. -/
theorem connect_shape (newShard : Int → Except E τ) (s s' : ShardSet τ) (err : Option E)
    (h : ShardSet.Connect newShard s = .ok (s', err)) :
    (s'.shards.length : Int) = s'.numShards ∧ s'.numShards = s.numShards
      ∧ s'.maxShards = s.maxShards := by
  simp only [ShardSet.Connect] at h
  split at h
  · simp at h
  · rename_i hn
    simp only [Except.ok.injEq] at h
    obtain ⟨a, b, c⟩ := connectLoop_shape newShard s.numShards.toNat 0
      { s with shards := List.replicate s.numShards.toNat none }
    rw [h] at a b c
    simp only [List.length_replicate] at a b c
    refine ⟨?_, b, c⟩
    rw [a, b]
    omega

/-- C10: for a `ShardSet` with `maxShards ≥ 1` whose slice has length
`numShards = maxShards`, and an `int64` `id ≥ 1`, `Shard(id)` does not panic
and returns the element at index `(id - 1) mod maxShards`, which is inside
the slice; ids `1..maxShards` give index `id - 1`, id `maxShards + 1` gives
index 0; and `Shard(0)` panics. -/
theorem shard_index (s : ShardSet τ) (hmax : 1 ≤ s.maxShards)
    (hlen : (s.shards.length : Int) = s.numShards) (heq : s.numShards = s.maxShards)
    (id : Int) (hid : 1 ≤ id) (hid64 : id < 2 ^ 63) :
    (∃ (k : Nat) (p : Option τ), (k : Int) = (id - 1) % s.maxShards
        ∧ k < s.shards.length ∧ s.shards[k]? = some p ∧ s.Shard id = .ok p
        ∧ (id ≤ s.maxShards → (k : Int) = id - 1)
        ∧ (id = s.maxShards + 1 → k = 0))
      ∧ s.Shard 0 = .error .badShardId := by
  have hw : wrapInt64 (id - 1) = id - 1 := by
    simp only [wrapInt64]
    omega
  have hpos : (0 : Int) < s.maxShards := by omega
  have hnn : 0 ≤ (id - 1) % s.maxShards := Int.emod_nonneg _ (ne_of_gt hpos)
  have hlt : (id - 1) % s.maxShards < s.maxShards := Int.emod_lt_of_pos _ hpos
  have htm : Int.tmod (id - 1) s.maxShards = (id - 1) % s.maxShards :=
    Int.tmod_eq_emod (by omega) (by omega)
  have hk : ((id - 1) % s.maxShards).toNat < s.shards.length := by omega
  refine ⟨⟨((id - 1) % s.maxShards).toNat, s.shards[((id - 1) % s.maxShards).toNat], ?_, hk,
    ?_, ?_, ?_, ?_⟩, ?_⟩
  · omega
  · exact List.getElem?_eq_getElem hk
  · have h0 : id ≠ 0 := by omega
    have hm0 : s.maxShards ≠ 0 := by omega
    have hneg : ¬ (id - 1) % s.maxShards < 0 := by omega
    simp only [ShardSet.Shard, h0, hm0, if_false, hw, htm, hneg,
      List.getElem?_eq_getElem hk]
  · intro hle
    have : (id - 1) % s.maxShards = id - 1 := Int.emod_eq_of_lt (by omega) (by omega)
    omega
  · intro he
    have : (id - 1) % s.maxShards = 0 := by
      rw [he]; simp
    omega
  · simp [ShardSet.Shard]

/-- Three shards: id 4 wraps to index 0, and id 0 panics. -/
theorem shard_index_witness :
    threeShards.Shard 4 = .ok (some 10) ∧ threeShards.Shard 0 = .error .badShardId := by
  obtain ⟨⟨k, p, -, -, hget, hsh, -, h2⟩, h0⟩ :=
    shard_index threeShards (by decide) (by decide) (by decide) 4 (by decide) (by decide)
  have hk : k = 0 := h2 (by decide)
  subst hk
  simp only [threeShards, List.getElem?_cons_zero, Option.some.injEq] at hget
  subst hget
  exact ⟨hsh, h0⟩

end Sql
